import Mathlib

/-!
Verification of the microcline terminal-panel toolkit (src/microcline.py).

This file shallowly embeds the algorithmic core of the source:
* the chunk-wrapping layout loop of `Msgbox.append`,
* the scrollback rendering loop of `Msgbox.draw` (including its staleness
  dimming rule),
* the paging operations `Msgbox.page_up` / `Msgbox.page_down`,
* the input-submission logic of `Cmdbox.get` (key loop, command echo and
  command-history dedup push).

Conventions of the embedding:
* Python strings are Lean `String`s, and every string operation used by the
  source (`len`, slicing, `lstrip`, `rfind`) is implemented on the
  underlying character list so that the kernel can evaluate it.
* curses style attributes are natural numbers combined with bitwise or
  (`curses.A_NORMAL = 0`; the concrete nonzero values of `A_DIM`/`A_BOLD`
  are irrelevant, only that they are distinct bits).
* The `while True:` wrap loop of `Msgbox.append` is embedded with explicit
  fuel: a result of `none` means the loop has not finished within the given
  fuel (the loop genuinely diverges for widths ≤ 2, see the theorems on
  claim C2).
* Raised Python exceptions are explicit error values (`AppendErr` for the
  invalid-chunk `raise` in `append`, `DrawErr` for the `phrase[0]`
  IndexError in `draw`).
-/

/-! ## Python string primitives -/

/-- `len(s)` — number of characters of a Python string. -/
def pyLen (s : String) : Nat := s.data.length

/-- `s[:n]` for `0 ≤ n` — the first `n` characters. -/
def pyTake (s : String) (n : Nat) : String := String.mk (s.data.take n)

/-- `s[n:]` for `0 ≤ n` — everything after the first `n` characters. -/
def pyDrop (s : String) (n : Nat) : String := String.mk (s.data.drop n)

/-- The ASCII whitespace characters stripped by Python `str.lstrip()`.
(Python also strips some non-ASCII whitespace; all text reaching the
source's `lstrip` calls is built from printable keys and string literals,
where the two notions agree.) -/
def isPySpace (c : Char) : Bool :=
  c == ' ' || c == '\t' || c == '\n' || c == '\r' || c == '\x0b' || c == '\x0c'

/-- `s.lstrip()` — drop leading whitespace. -/
def pyLstrip (s : String) : String := String.mk (s.data.dropWhile isPySpace)

/-- Index of the last `' '` in a character list, or `none`.
Implements the search performed by `phrase[:r].rfind(" ")`. -/
def lastSpaceIdx : List Char → Option Nat
  | [] => none
  | c :: cs =>
    match lastSpaceIdx cs with
    | some i => some (i + 1)
    | none => if c == ' ' then some 0 else none

/-- `s[:r].rfind(" ")`, with `none` standing for Python's `-1`. -/
def pyRfindSpace (s : String) (r : Nat) : Option Nat :=
  lastSpaceIdx (s.data.take r)

/-! ## Styles, chunks and lines -/

/-- `curses.A_NORMAL`. -/
def A_NORMAL : Nat := 0

/-- `curses.A_DIM` (a single attribute bit; the exact value is irrelevant). -/
def A_DIM : Nat := 4096

/-- `curses.A_BOLD` (a single attribute bit; the exact value is irrelevant). -/
def A_BOLD : Nat := 8192

/-- An argument passed to `Msgbox.append`: a bare string, a
`(text, style)` 2-tuple, or any other Python value (which `append`
rejects with `raise Exception(...)`). -/
inductive Chunk where
  | str (s : String)
  | tup (s : String) (style : Nat)
  | other
  deriving DecidableEq, Repr

/-- One stored scrollback line: the list of `(phrase, style)` pairs that
`append` accumulated for one display row. -/
abbrev Line := List (String × Nat)

/-- Sum of the character counts of a line's chunks — the number of columns
the line occupies when drawn. -/
def lineLen (l : Line) : Nat := (l.map (fun pc => pyLen pc.1)).sum

/-! ## The wrap loop of `Msgbox.append` (src/microcline.py lines 243-287)

The produced lines are kept most-recent-first (head = the line currently
being built), mirroring `deque.appendleft` / `self.history[0]`. -/

/-- `self.history[0].append(chunk)` — extend the line at the front. -/
def pushChunk (hist : List Line) (c : String × Nat) : List Line :=
  match hist with
  | [] => [[c]]
  | l :: rest => (l ++ [c]) :: rest

/-- `self.history.appendleft([("  ", curses.A_NORMAL)])` — start a fresh
continuation line. (Ring eviction is applied once at the `msgAppend`
level, see there.) -/
def newLine (hist : List Line) : List Line :=
  [("  ", A_NORMAL)] :: hist

/-- The `while True:` loop body of `Msgbox.append` for one phrase, with
explicit fuel. Arguments: fuel, `self.w`, the remaining phrase, its style,
`line_position`, and the produced lines so far (head = current line).
Returns the produced lines and the final `line_position`, or `none` if the
fuel ran out before the loop finished. -/
def wrapPhrase : Nat → Nat → String → Nat → Nat → List Line → Option (List Line × Nat)
  | 0, _, _, _, _, _ => none
  | Nat.succ fuel, w, phrase0, style, pos, hist =>
    -- if line_position == 2: phrase = phrase.lstrip()
    let phrase := if pos = 2 then pyLstrip phrase0 else phrase0
    -- remaining_space = self.w - line_position
    let remaining := w - pos
    if pyLen phrase ≤ remaining then
      -- happy path: phrase fits on the current line
      some (pushChunk hist (phrase, style), pos + pyLen phrase)
    else
      -- last_space = phrase[:remaining_space].rfind(" ")
      let lastSpace : Int :=
        match pyRfindSpace phrase remaining with
        | some i => (i : Int)
        | none => -1
      if 0 < lastSpace then
        -- split at the rightmost space in range
        wrapPhrase fuel w (pyDrop phrase lastSpace.toNat) style 2
          (newLine (pushChunk hist (pyTake phrase lastSpace.toNat, style)))
      else if pos = 2 then
        -- single word longer than the entire line: hard split
        wrapPhrase fuel w (pyDrop phrase remaining) style 2
          (newLine (pushChunk hist (pyTake phrase remaining, style)))
      else
        -- nothing fits here: retry the whole phrase on the next line
        wrapPhrase fuel w phrase style 2 (newLine hist)

/-- The exception raised by `Msgbox.append` on a chunk that is neither a
string nor a tuple. -/
inductive AppendErr where
  | invalidChunk
  deriving DecidableEq, Repr

/-- The `for chunk in chunks:` loop of `Msgbox.append`: resolve each
chunk's phrase and style (raising on anything else) and wrap it. -/
def wrapChunksGo (fuel w : Nat) : List Chunk → List Line → Nat → Option (List Line × Option AppendErr)
  | [], hist, _ => some (hist, none)
  | c :: rest, hist, pos =>
    match c with
    | Chunk.str s =>
      match wrapPhrase fuel w s A_NORMAL pos hist with
      | none => none
      | some (h', p') => wrapChunksGo fuel w rest h' p'
    | Chunk.tup s st =>
      match wrapPhrase fuel w s st pos hist with
      | none => none
      | some (h', p') => wrapChunksGo fuel w rest h' p'
    | Chunk.other => some (hist, some AppendErr.invalidChunk)

/-- All lines produced by one `Msgbox.append(*chunks, sigil=...)` call,
most-recent-first: the sigil line `f"{sigil} "` is pushed first
(before any chunk is validated), then the chunks are wrapped. -/
def wrapChunks (fuel w : Nat) (chunks : List Chunk) (sigil : String) :
    Option (List Line × Option AppendErr) :=
  wrapChunksGo fuel w chunks [[(sigil ++ " ", A_NORMAL)]] 2

/-- `Msgbox.append` acting on the scrollback ring: the produced lines are
pushed onto the front and the ring is truncated to `maxlen = self.h*10`
(the bounded deque evicts from the oldest end on each `appendleft`, which
for `maxlen ≥ 1` is the same as one final truncation — the line currently
being built is always the newest element, so it is never the one evicted).
The second component is the raised exception, if any: on an invalid chunk
the ring keeps everything pushed so far (the source raises *after* the
sigil line and all earlier chunks have been stored). -/
def msgAppend (fuel w maxlen : Nat) (chunks : List Chunk) (sigil : String)
    (hist : List Line) : Option (List Line × Option AppendErr) :=
  match wrapChunks fuel w chunks sigil with
  | none => none
  | some (produced, e) => some (List.take maxlen (produced ++ hist), e)

/-- Decidable equality for `Except`, so that concrete draw outcomes can be
checked by `decide`. -/
instance exceptDecEq {ε α : Type} [DecidableEq ε] [DecidableEq α] :
    DecidableEq (Except ε α) := fun x y =>
  match x, y with
  | Except.ok a, Except.ok b =>
    if h : a = b then isTrue (by rw [h])
    else isFalse (fun hc => h (Except.ok.inj hc))
  | Except.error a, Except.error b =>
    if h : a = b then isTrue (by rw [h])
    else isFalse (fun hc => h (Except.error.inj hc))
  | Except.ok _, Except.error _ => isFalse (fun hc => Except.noConfusion hc)
  | Except.error _, Except.ok _ => isFalse (fun hc => Except.noConfusion hc)

/-! ## The rendering loop of `Msgbox.draw` (src/microcline.py lines 290-334) -/

/-- The IndexError raised by `phrase[0]` when a stored chunk has empty
text (src/microcline.py line 330). -/
inductive DrawErr where
  | indexError
  deriving DecidableEq, Repr

/-- The inner `for (phrase, chunk_style) in line:` loop of `Msgbox.draw`.
Python evaluates `self.history_index == 0 and phrase[0] == "❱"`
left-to-right with short-circuiting, so `phrase[0]` is only read (and can
only raise) while not paging. Each chunk is drawn with
`chunk_style | line_style`; `line_style` is fixed for the whole line.
Returns the drawn chunks and the updated `stale` flag. -/
def renderChunks (hIdx : Int) (lineStyle : Nat) :
    List (String × Nat) → Bool → Except DrawErr (List (String × Nat) × Bool)
  | [], stale => Except.ok ([], stale)
  | (phrase, cst) :: rest, stale =>
    if hIdx = 0 then
      match phrase.data with
      | [] => Except.error DrawErr.indexError
      | ch :: _ =>
        let stale' := stale || (ch == '❱')
        match renderChunks hIdx lineStyle rest stale' with
        | Except.error e => Except.error e
        | Except.ok (out, s) => Except.ok ((phrase, cst ||| lineStyle) :: out, s)
    else
      match renderChunks hIdx lineStyle rest stale with
      | Except.error e => Except.error e
      | Except.ok (out, s) => Except.ok ((phrase, cst ||| lineStyle) :: out, s)

/-- The outer `for i in range(0, lines_to_print):` loop of `Msgbox.draw`.
`line_style` starts as `A_NORMAL` and is switched to `A_DIM` at the top of
an iteration once `stale` has been set by an earlier line, never switching
back. The drawn line is `self.history[i + self.history_index]`
(the index is in range whenever this is reached, see `msgDraw`). -/
def drawGo (hist : List Line) (hIdx : Int) : Nat → Nat → Bool → Except DrawErr (List Line)
  | 0, _, _ => Except.ok []
  | Nat.succ cnt, i, stale =>
    let lineStyle := if stale then A_DIM else A_NORMAL
    match renderChunks hIdx lineStyle (hist.getD (hIdx.toNat + i) []) stale with
    | Except.error e => Except.error e
    | Except.ok (out, stale') =>
      match drawGo hist hIdx cnt (i + 1) stale' with
      | Except.error e => Except.error e
      | Except.ok rows => Except.ok (out :: rows)

/-- `Msgbox.draw`: computed over the scrollback `hist` (most-recent-first)
and paging offset `hIdx = self.history_index`. Returns the rows actually
drawn, in the order `i = 0, 1, ...` (bottom of the box upward), or the
propagated IndexError. The paging indicator and the physical row
coordinates (`self.h - 1 - compensate_paging - i`) are pure screen output
and carry no information beyond `hIdx ≠ 0` and `i`, so they are not part
of the result. `_w` (`self.w`) only positions the indicator. -/
def msgDraw (h _w : Nat) (hist : List Line) (hIdx : Int) : Except DrawErr (List Line) :=
  let compensate : Int := if hIdx ≠ 0 then 1 else 0
  let linesToPrint : Nat := (min ((h : Int) - compensate) ((hist.length : Int) - hIdx)).toNat
  drawGo hist hIdx linesToPrint 0 false

/-! ## Msgbox state and the paging operations (src/microcline.py lines 336-344) -/

/-- The state of a `Msgbox`: geometry, the scrollback ring
(most-recent-first, bounded by `h*10`), and the paging offset
`self.history_index` (a Python integer). -/
structure MsgboxState where
  h : Nat
  w : Nat
  history : List Line
  historyIndex : Int
  deriving DecidableEq, Repr

/-- `self.page_size = self.h // 3`. -/
def pageSizeOf (st : MsgboxState) : Int := ((st.h / 3 : Nat) : Int)

/-- `Msgbox.page_up`: if `len(self.history) - self.history_index >
self.page_size`, advance the offset by a page and redraw. Returns the new
state together with the outcome of the triggered `self.draw()` call (the
offset is updated before `draw` runs, so it sticks even if `draw`
raises). -/
def msgPageUp (st : MsgboxState) : MsgboxState × Except DrawErr (List Line) :=
  if pageSizeOf st < (st.history.length : Int) - st.historyIndex then
    let st' := { st with historyIndex := st.historyIndex + pageSizeOf st }
    (st', msgDraw st'.h st'.w st'.history st'.historyIndex)
  else (st, Except.ok [])

/-- `Msgbox.page_down`: if `self.history_index >= self.page_size`, move
the offset back by a page and redraw. -/
def msgPageDown (st : MsgboxState) : MsgboxState × Except DrawErr (List Line) :=
  if pageSizeOf st ≤ st.historyIndex then
    let st' := { st with historyIndex := st.historyIndex - pageSizeOf st }
    (st', msgDraw st'.h st'.w st'.history st'.historyIndex)
  else (st, Except.ok [])

/-- One externally triggered mutation of a `Msgbox` considered by claim
C5: a paging key, or an `append` pushing some list of freshly wrapped
lines onto the ring (every terminating `append` call — including one that
raises on an invalid chunk — changes the ring in exactly this way, see
`msgAppend`). -/
inductive MsgOp where
  | up
  | down
  | push (ls : List Line)

/-- Apply one operation to the state (the draw outcome carries no state). -/
def msgStep (st : MsgboxState) : MsgOp → MsgboxState
  | MsgOp.up => (msgPageUp st).1
  | MsgOp.down => (msgPageDown st).1
  | MsgOp.push ls => { st with history := List.take (st.h * 10) (ls ++ st.history) }

/-- Run a sequence of operations. -/
def msgRun (st : MsgboxState) (ops : List MsgOp) : MsgboxState :=
  ops.foldl msgStep st

/-! ## The command box `Cmdbox.get` (src/microcline.py lines 361-434) -/

/-- The mutable state visible to `Cmdbox.get`: the owning window's
message box and the command-history ring (`deque(maxlen=10)`,
most-recent-first, lists of typed characters). -/
structure World where
  msg : MsgboxState
  cmdHist : List (List Char)
  deriving DecidableEq, Repr

/-- The history push on submission (src/microcline.py lines 424-429):
push the raw character buffer at the front unless it is identical to the
current front entry; the deque truncates to its `maxlen` of 10. -/
def cmdHistPush (chars : List Char) (hist : List (List Char)) : List (List Char) :=
  match hist with
  | [] => List.take 10 (chars :: hist)
  | h :: _ => if chars ≠ h then List.take 10 (chars :: hist) else hist

/-- What `Cmdbox.get` does after the key loop breaks
(src/microcline.py lines 417-434): form `command` by joining and
left-stripping the buffer; if non-empty, echo it to the message box as a
bold "❱"-sigil entry and push the raw buffer into the command history.
Returns the command and the updated world; `none` if the echoing
`msgbox.append` ran out of fuel. (A `(text, style)` tuple chunk never
raises, so the `AppendErr` component of `msgAppend` is impossible here and
is dropped.) -/
def submitStep (fuel : Nat) (chars : List Char) (w : World) : Option (String × World) :=
  let command := pyLstrip (String.mk chars)
  if command = "" then some ("", w)
  else
    match msgAppend fuel w.msg.w (w.msg.h * 10) [Chunk.tup command A_BOLD] "❱" w.msg.history with
    | none => none
    | some (h', _) =>
      some (command,
        { msg := { w.msg with history := h' },
          cmdHist := cmdHistPush chars w.cmdHist })

/-- Result of feeding a finite keystroke script to `Cmdbox.get`. -/
inductive GetOut where
  | finished (cmd : String) (w : World)
  /-- The script ran out before the enter key: the real loop would now
  block on `getch`. -/
  | blocked
  /-- An exception escaped from a `draw` triggered inside the loop. -/
  | raised (e : DrawErr)
  deriving DecidableEq, Repr

/-- The `while True:` key loop of `Cmdbox.get`, fed a finite list of
`getch` codes. `chars` is `self.chars`, `cursor` the local
`history_index` (starting at -1). Debug mode is off and no custom
commands are registered, so the `case 4`, registered-key and fallthrough
arms are all no-ops. `Cmdbox.draw` only paints the edit line and mutates
no state, so it does not appear. -/
def getLoop (fuel : Nat) : List Nat → List Char → Int → World → Option GetOut
  | [], _, _, _ => some GetOut.blocked
  | k :: rest, chars, cursor, w =>
    if 32 ≤ k ∧ k ≤ 126 then
      -- printable ascii: self.chars.append(chr(key))
      getLoop fuel rest (chars ++ [Char.ofNat k]) cursor w
    else if k = 127 ∨ k = 263 then
      -- backspace (curses.KEY_BACKSPACE = 263): pop the last char if any
      getLoop fuel rest (if chars.isEmpty then chars else chars.dropLast) cursor w
    else if k = 259 then
      -- curses.KEY_UP: recall an older history entry
      if cursor < (w.cmdHist.length : Int) - 1 then
        getLoop fuel rest ((w.cmdHist.getD (cursor + 1).toNat [])) (cursor + 1) w
      else getLoop fuel rest chars cursor w
    else if k = 258 then
      -- curses.KEY_DOWN: recall a newer history entry
      if 0 < cursor then
        getLoop fuel rest ((w.cmdHist.getD (cursor - 1).toNat [])) (cursor - 1) w
      else getLoop fuel rest chars cursor w
    else if k = 339 then
      -- curses.KEY_PPAGE: delegate to msgbox.page_up
      match msgPageUp w.msg with
      | (_, Except.error e) => some (GetOut.raised e)
      | (m', Except.ok _) => getLoop fuel rest chars cursor { w with msg := m' }
    else if k = 338 then
      -- curses.KEY_NPAGE: delegate to msgbox.page_down
      match msgPageDown w.msg with
      | (_, Except.error e) => some (GetOut.raised e)
      | (m', Except.ok _) => getLoop fuel rest chars cursor { w with msg := m' }
    else if k = 13 then
      -- enter: break out of the loop and submit
      match submitStep fuel chars w with
      | none => none
      | some (cmd, w') => some (GetOut.finished cmd w')
    else
      -- Ctrl+D with debug off, unregistered and unhandled keys: no-ops
      getLoop fuel rest chars cursor w

/-- `Cmdbox.get(prompt)` fed a keystroke script: optionally echo the
prompt as a "❰"-sigil entry and redraw the message box, then run the key
loop with an empty edit buffer and history cursor -1. (A bare-string
prompt chunk never raises, so the `AppendErr` component is impossible and
is dropped.) -/
def cmdGet (fuel : Nat) (prompt : Option String) (keys : List Nat) (w : World) : Option GetOut :=
  match prompt with
  | none => getLoop fuel keys [] (-1) w
  | some p =>
    match msgAppend fuel w.msg.w (w.msg.h * 10) [Chunk.str p] "❰" w.msg.history with
    | none => none
    | some (h', _) =>
      let m' := { w.msg with history := h' }
      match msgDraw m'.h m'.w m'.history m'.historyIndex with
      | Except.error e => some (GetOut.raised e)
      | Except.ok _ => getLoop fuel keys [] (-1) { w with msg := m' }

/-! ## Basic facts about the string primitives -/

theorem pyLen_pyDrop (s : String) (n : Nat) : pyLen (pyDrop s n) = pyLen s - n := by
  simp [pyLen, pyDrop]

theorem pyLen_pyTake (s : String) (n : Nat) : pyLen (pyTake s n) = min n (pyLen s) := by
  simp [pyLen, pyTake]

theorem pyLen_pyLstrip_le (s : String) : pyLen (pyLstrip s) ≤ pyLen s := by
  simpa [pyLen, pyLstrip] using (List.dropWhile_sublist isPySpace (l := s.data)).length_le

theorem lastSpaceIdx_lt {l : List Char} {i : Nat} (h : lastSpaceIdx l = some i) :
    i < l.length := by
  induction l generalizing i with
  | nil => simp [lastSpaceIdx] at h
  | cons c cs ih =>
    simp only [lastSpaceIdx] at h
    cases hcs : lastSpaceIdx cs with
    | some j =>
      rw [hcs] at h
      cases h
      exact Nat.succ_lt_succ (ih hcs)
    | none =>
      rw [hcs] at h
      by_cases hc : c == ' '
      · rw [if_pos hc] at h
        cases h
        simp
      · rw [if_neg hc] at h
        cases h

theorem pyRfindSpace_lt {s : String} {r i : Nat} (h : pyRfindSpace s r = some i) :
    i < min r (pyLen s) := by
  have h2 : i < (s.data.take r).length := lastSpaceIdx_lt h
  rw [List.length_take] at h2
  exact h2

theorem data_ne_nil_of_ne_empty {s : String} (h : s ≠ "") : s.data ≠ [] := by
  intro hd
  exact h (String.ext (by rw [hd]))

/-! ## Rendering when not paging never dims and never raises (claim C4) -/

theorem renderChunks_not_paging (hIdx : Int) (hne : hIdx ≠ 0) :
    ∀ (l : List (String × Nat)) (stale : Bool),
      renderChunks hIdx A_NORMAL l stale = Except.ok (l, stale) := by
  intro l
  induction l with
  | nil => intro stale; rfl
  | cons pc t ih =>
    intro stale
    obtain ⟨p, c⟩ := pc
    simp only [renderChunks, if_neg hne, ih stale]
    simp [A_NORMAL, Nat.or_zero]

theorem drawGo_not_paging (hist : List Line) (hIdx : Int) (hne : hIdx ≠ 0) :
    ∀ (cnt i : Nat), hIdx.toNat + i + cnt ≤ hist.length →
      drawGo hist hIdx cnt i false
        = Except.ok (List.take cnt (List.drop (hIdx.toNat + i) hist)) := by
  intro cnt
  induction cnt with
  | zero =>
    intro i _
    simp [drawGo]
  | succ n ih =>
    intro i h
    have hlt : hIdx.toNat + i < hist.length := by omega
    have harith : hIdx.toNat + (i + 1) = hIdx.toNat + i + 1 := by omega
    have hstyle : (if (false : Bool) then A_DIM else A_NORMAL) = A_NORMAL := rfl
    simp only [drawGo, hstyle, List.getD_eq_getElem hist [] hlt,
      renderChunks_not_paging hIdx hne, ih (i + 1) (by omega), harith,
      List.drop_eq_getElem_cons hlt, List.take_succ_cons]

/-! ## Rendering succeeds when every stored chunk has text (claims C5, C10) -/

/-- Every chunk stored in the scrollback has non-empty text — the implicit
precondition of `Msgbox.draw`'s staleness scan. -/
def noEmptyChunk (hist : List Line) : Prop :=
  ∀ l ∈ hist, ∀ pc ∈ l, pc.1 ≠ ""

instance (hist : List Line) : Decidable (noEmptyChunk hist) := by
  unfold noEmptyChunk
  infer_instance

theorem renderChunks_ok (hIdx : Int) (ls : Nat) :
    ∀ (l : List (String × Nat)), (∀ pc ∈ l, pc.1 ≠ "") → ∀ stale : Bool,
      ∃ r, renderChunks hIdx ls l stale = Except.ok r := by
  intro l
  induction l with
  | nil => exact fun _ stale => ⟨([], stale), rfl⟩
  | cons pc t ih =>
    intro hl stale
    obtain ⟨p, c⟩ := pc
    by_cases h0 : hIdx = 0
    · have hp : p.data ≠ [] := data_ne_nil_of_ne_empty (hl (p, c) (by simp))
      cases hdata : p.data with
      | nil => exact absurd hdata hp
      | cons ch cs =>
        obtain ⟨⟨out, s⟩, hr⟩ := ih (fun pc hm => hl pc (by simp [hm])) (stale || (ch == '❱'))
        exact ⟨((p, c ||| ls) :: out, s), by simp only [renderChunks, if_pos h0, hdata, hr]⟩
    · obtain ⟨⟨out, s⟩, hr⟩ := ih (fun pc hm => hl pc (by simp [hm])) stale
      exact ⟨((p, c ||| ls) :: out, s), by simp only [renderChunks, if_neg h0, hr]⟩

theorem drawGo_ok (hist : List Line) (hIdx : Int) (hne : noEmptyChunk hist) :
    ∀ (cnt i : Nat) (stale : Bool), ∃ rows, drawGo hist hIdx cnt i stale = Except.ok rows := by
  intro cnt
  induction cnt with
  | zero => exact fun _ _ => ⟨[], rfl⟩
  | succ n ih =>
    intro i stale
    have hline : ∀ pc ∈ hist.getD (hIdx.toNat + i) [], pc.1 ≠ "" := by
      by_cases hlt : hIdx.toNat + i < hist.length
      · rw [List.getD_eq_getElem hist [] hlt]
        exact hne _ (List.getElem_mem hlt)
      · rw [List.getD_eq_default hist [] (by omega)]
        simp
    obtain ⟨⟨out, s⟩, hr⟩ :=
      renderChunks_ok hIdx (if stale then A_DIM else A_NORMAL) _ hline stale
    obtain ⟨rows, hrows⟩ := ih (i + 1) s
    exact ⟨out :: rows, by simp only [drawGo, hr, hrows]⟩

theorem msgDraw_ok (h w : Nat) (hist : List Line) (hIdx : Int) (hne : noEmptyChunk hist) :
    ∃ rows, msgDraw h w hist hIdx = Except.ok rows :=
  drawGo_ok hist hIdx hne _ 0 false

/-! ## Claim C4 — staleness boundary -/

/-- C4: with `pagingOffset = 0`, rendering the scrollback
[plain, plain, command, plain, plain] (most-recent-first) draws the two
lines older than the "❱"-sigil line dimmed (each chunk's style unioned
with `A_DIM`) and the command line and everything newer with their
original styles; and with any nonzero (positive) paging offset, rendering
returns exactly the stored lines in its window, none of them dimmed. -/
theorem c4_staleness_boundary :
    (msgDraw 5 20
        [[("· ", A_NORMAL), ("new1", A_NORMAL)],
         [("· ", A_NORMAL), ("new2", A_NORMAL)],
         [("❱ ", A_NORMAL), ("go", A_BOLD)],
         [("· ", A_NORMAL), ("old1", A_NORMAL)],
         [("· ", A_NORMAL), ("old2", 256)]] 0
      = Except.ok
        [[("· ", A_NORMAL), ("new1", A_NORMAL)],
         [("· ", A_NORMAL), ("new2", A_NORMAL)],
         [("❱ ", A_NORMAL), ("go", A_BOLD)],
         [("· ", A_NORMAL ||| A_DIM), ("old1", A_NORMAL ||| A_DIM)],
         [("· ", A_NORMAL ||| A_DIM), ("old2", 256 ||| A_DIM)]])
    ∧ (∀ (h w : Nat) (hist : List Line) (hIdx : Int), 0 < hIdx →
        msgDraw h w hist hIdx
          = Except.ok (List.take (min ((h : Int) - 1) ((hist.length : Int) - hIdx)).toNat
              (List.drop hIdx.toNat hist))) := by
  constructor
  · decide
  · intro h w hist hIdx hpos
    have hne : hIdx ≠ 0 := by omega
    by_cases hle : hIdx ≤ (hist.length : Int)
    · have harith :
          hIdx.toNat + 0 + (min ((h : Int) - 1) ((hist.length : Int) - hIdx)).toNat
            ≤ hist.length := by omega
      have hgo := drawGo_not_paging hist hIdx hne
        (min ((h : Int) - 1) ((hist.length : Int) - hIdx)).toNat 0 harith
      simp only [msgDraw, if_pos hne]
      simpa using hgo
    · have hn : (min ((h : Int) - 1) ((hist.length : Int) - hIdx)).toNat = 0 := by omega
      simp only [msgDraw, if_pos hne, hn]
      simp [drawGo]

/-- Witness for C4: a concrete render with offset 1 returns the stored
lines unchanged. -/
theorem c4_staleness_boundary_witness :
    msgDraw 5 20 [[("a", 7)], [("b", 9)], [("c", 11)]] 1
      = Except.ok [[("b", 9)], [("c", 11)]] := by
  rw [c4_staleness_boundary.2 5 20 [[("a", 7)], [("b", 9)], [("c", 11)]] 1 (by decide)]
  decide

/-! ## Claim C7 — submission roundtrip -/

/-- C7: `Cmdbox.get` (readCommand) fed the keystrokes g, o, enter returns
"go", and the frontmost scrollback line afterwards is the command-sigil
line [("❱ ", normal), ("go", bold)]; the raw buffer ['g','o'] is pushed
onto the command history. -/
theorem c7_submission_roundtrip :
    cmdGet 50 none [103, 111, 13] ⟨⟨5, 20, [], 0⟩, []⟩
      = some (GetOut.finished "go"
          ⟨⟨5, 20, [[("❱ ", A_NORMAL), ("go", A_BOLD)]], 0⟩, [['g', 'o']]⟩) := by
  decide

/-! ## Claim C8 — long single word -/

/-- C8: wrapping the single chunk "supercalifragilisticexpialidocious" at
width 10 yields five lines; every non-prefix fragment has exactly
10 − 2 = 8 characters except the final "us", and the fragments
concatenate back to the original word. -/
theorem c8_long_word :
    wrapChunks 80 10 [Chunk.str "supercalifragilisticexpialidocious"] "·"
      = some ([[("  ", A_NORMAL), ("us", A_NORMAL)],
               [("  ", A_NORMAL), ("alidocio", A_NORMAL)],
               [("  ", A_NORMAL), ("sticexpi", A_NORMAL)],
               [("  ", A_NORMAL), ("ifragili", A_NORMAL)],
               [("· ", A_NORMAL), ("supercal", A_NORMAL)]], none)
    ∧ (∀ frag ∈ [("supercal" : String), "ifragili", "sticexpi", "alidocio"],
        pyLen frag = 10 - 2)
    ∧ pyLen "us" ≤ 10 - 2
    ∧ "supercal" ++ "ifragili" ++ "sticexpi" ++ "alidocio" ++ "us"
        = "supercalifragilisticexpialidocious" := by
  decide

/-! ## Claim C10 — draw requires non-empty chunk text -/

/-- C10: `Msgbox.draw` succeeds whenever every stored chunk has non-empty
text, but `Msgbox.append` happily stores an empty-text chunk (no error),
and the subsequent non-paging draw fails with an IndexError from
`phrase[0]`. -/
theorem c10_draw_empty_chunk :
    (∀ (h w : Nat) (hist : List Line) (hIdx : Int), noEmptyChunk hist →
        ∃ rows, msgDraw h w hist hIdx = Except.ok rows)
    ∧ msgAppend 10 5 30 [Chunk.str ""] "·" []
        = some ([[("· ", A_NORMAL), ("", A_NORMAL)]], none)
    ∧ msgDraw 3 5 [[("· ", A_NORMAL), ("", A_NORMAL)]] 0
        = Except.error DrawErr.indexError :=
  ⟨msgDraw_ok, by decide, by decide⟩

/-- Witness for C10: a concrete scrollback with non-empty chunk text
renders without error. -/
theorem c10_draw_empty_chunk_witness :
    ∃ rows, msgDraw 3 5 [[("· ", A_NORMAL), ("ok", A_NORMAL)]] 0 = Except.ok rows :=
  c10_draw_empty_chunk.1 3 5 [[("· ", A_NORMAL), ("ok", A_NORMAL)]] 0 (by decide)

/-! ## Claim C3 — append is not atomic on an invalid chunk -/

/-- C3 counterexample: appending the single invalid chunk to an empty
scrollback raises, yet the scrollback afterwards holds the sigil line —
it is not "exactly the same after the failed call as before it". -/
theorem c3_not_atomic_counterexample :
    msgAppend 10 5 30 [Chunk.other] "·" []
      = some ([[("· ", A_NORMAL)]], some AppendErr.invalidChunk)
    ∧ ([[(("· " : String), A_NORMAL)]] : List Line) ≠ [] := by
  decide

/-! ## Claim C5 counterexample — page_down can propagate a draw exception -/

/-- C5 counterexample: from offset 0, two appends (the newer one storing
an empty-text chunk, which `append` accepts) followed by `page_up` reach
a state in which `page_down` raises an IndexError out of the redraw it
triggers — the operation is not exception-free as claimed. -/
theorem c5_pagedown_raises_counterexample :
    msgRun ⟨3, 5, [], 0⟩
        [MsgOp.push [[("· ", A_NORMAL), ("x", A_NORMAL)]],
         MsgOp.push [[("· ", A_NORMAL), ("", A_NORMAL)]],
         MsgOp.up]
      = ⟨3, 5, [[("· ", A_NORMAL), ("", A_NORMAL)], [("· ", A_NORMAL), ("x", A_NORMAL)]], 1⟩
    ∧ (msgPageDown
        ⟨3, 5, [[("· ", A_NORMAL), ("", A_NORMAL)], [("· ", A_NORMAL), ("x", A_NORMAL)]], 1⟩).2
      = Except.error DrawErr.indexError := by
  decide

/-! ## Claim C2 — width ≤ 2 diverges instead of raising -/

/-- At `self.w = 2` the wrap loop is stuck: `remaining_space` is 0, the
hard-split emits the empty fragment `phrase[:0]` and carries over the
whole phrase `phrase[0:]` unchanged, forever. Whatever the fuel, the loop
does not finish. -/
theorem wrapPhrase_w2_ab (st : Nat) : ∀ (n : Nat) (hist : List Line),
    wrapPhrase n 2 "ab" st 2 hist = none := by
  intro n
  induction n with
  | zero => intro hist; rfl
  | succ m ih =>
    intro hist
    have estep : wrapPhrase (m + 1) 2 "ab" st 2 hist
        = wrapPhrase m 2 "ab" st 2 (newLine (pushChunk hist (pyTake "ab" 0, st))) := rfl
    rw [estep]
    exact ih _

/-- C2 (code bug): layout at width 2 with the non-empty chunk "ab" never
signals an error and never returns — no amount of fuel finishes the call;
the spec's InvalidWidth error does not exist in the code, which instead
loops forever. -/
theorem c2_width_two_never_returns (fuel maxlen : Nat) (hist : List Line) :
    msgAppend fuel 2 maxlen [Chunk.str "ab"] "·" hist = none := by
  simp [msgAppend, wrapChunks, wrapChunksGo, wrapPhrase_w2_ab]

/-! ## Claim C6 — command-history dedup -/

/-- No two adjacent entries of the command-history ring are equal — the
invariant maintained by the dedup check in `Cmdbox.get`. -/
def noAdjDupB : List (List Char) → Bool
  | [] => true
  | [_] => true
  | a :: b :: t => a != b && noAdjDupB (b :: t)

theorem noAdjDupB_take : ∀ (l : List (List Char)) (n : Nat),
    noAdjDupB l = true → noAdjDupB (List.take n l) = true
  | [], n, _ => by simp [noAdjDupB]
  | [a], n, _ => by cases n <;> simp [noAdjDupB]
  | a :: b :: t, 0, _ => by simp [noAdjDupB]
  | a :: b :: t, 1, _ => by simp [noAdjDupB]
  | a :: b :: t, (n + 2), h => by
    simp only [noAdjDupB, Bool.and_eq_true] at h
    have ih := noAdjDupB_take (b :: t) (n + 1) h.2
    simp only [List.take_succ_cons] at ih ⊢
    simp only [noAdjDupB, Bool.and_eq_true]
    exact ⟨h.1, ih⟩

theorem cmdHistPush_headEq (chars : List Char) (hist : List (List Char)) :
    (cmdHistPush chars hist).head? = some chars := by
  cases hist with
  | nil => rfl
  | cons h0 t =>
    show (if chars ≠ h0 then List.take 10 (chars :: h0 :: t) else h0 :: t).head? = some chars
    by_cases hch : chars ≠ h0
    · rw [if_pos hch]; rfl
    · rw [if_neg hch]
      push_neg at hch
      rw [hch]
      rfl

theorem cmdHistPush_self (chars : List Char) (hist : List (List Char))
    (h : hist.head? = some chars) : cmdHistPush chars hist = hist := by
  cases hist with
  | nil => simp at h
  | cons h0 t =>
    have hh : h0 = chars := by simpa using h
    show (if chars ≠ h0 then List.take 10 (chars :: h0 :: t) else h0 :: t) = h0 :: t
    rw [if_neg (by simp [hh])]

theorem noAdjDupB_cmdHistPush (chars : List Char) (hist : List (List Char))
    (hnd : noAdjDupB hist = true) : noAdjDupB (cmdHistPush chars hist) = true := by
  cases hist with
  | nil => rfl
  | cons h0 t =>
    show noAdjDupB (if chars ≠ h0 then List.take 10 (chars :: h0 :: t) else h0 :: t) = true
    by_cases hch : chars ≠ h0
    · rw [if_pos hch]
      apply noAdjDupB_take
      simp only [noAdjDupB, Bool.and_eq_true]
      exact ⟨by simpa using hch, hnd⟩
    · rw [if_neg hch]
      exact hnd

theorem submitStep_out (fuel : Nat) (chars : List Char) (w : World) (cmd : String) (w1 : World)
    (hcmd : pyLstrip (String.mk chars) ≠ "")
    (h : submitStep fuel chars w = some (cmd, w1)) :
    cmd = pyLstrip (String.mk chars) ∧ w1.cmdHist = cmdHistPush chars w.cmdHist := by
  unfold submitStep at h
  rw [if_neg hcmd] at h
  cases happ : msgAppend fuel w.msg.w (w.msg.h * 10)
      [Chunk.tup (pyLstrip (String.mk chars)) A_BOLD] "❱" w.msg.history with
  | none => rw [happ] at h; cases h
  | some pr =>
    obtain ⟨hh, e⟩ := pr
    rw [happ] at h
    injection h with h'
    injection h' with hc hw
    exact ⟨hc.symm, by rw [← hw]⟩

/-- C6: on submission of a non-empty command, the raw (untrimmed) edit
buffer lands at the front of CommandHistory; submitting the same
keystrokes again is a no-op for the history (no consecutive duplicate),
so — the history having no adjacent duplicates, as `Cmdbox.get` itself
maintains — the buffer occupies exactly one entry at the front, not two. -/
theorem c6_history_dedup (fuel : Nat) (chars : List Char) (w : World) (cmd : String) (w1 : World)
    (hnd : noAdjDupB w.cmdHist = true)
    (h : submitStep fuel chars w = some (cmd, w1)) (hne : cmd ≠ "") :
    w1.cmdHist = cmdHistPush chars w.cmdHist
    ∧ w1.cmdHist.head? = some chars
    ∧ noAdjDupB w1.cmdHist = true
    ∧ (∀ (fuel2 : Nat) (cmd2 : String) (w2 : World),
        submitStep fuel2 chars w1 = some (cmd2, w2) → w2.cmdHist = w1.cmdHist) := by
  have hcmd : pyLstrip (String.mk chars) ≠ "" := by
    intro h0
    unfold submitStep at h
    rw [if_pos h0] at h
    injection h with h'
    injection h' with hc hw
    exact hne hc.symm
  obtain ⟨hcEq, hw1⟩ := submitStep_out fuel chars w cmd w1 hcmd h
  refine ⟨hw1, ?_, ?_, ?_⟩
  · rw [hw1]
    exact cmdHistPush_headEq chars w.cmdHist
  · rw [hw1]
    exact noAdjDupB_cmdHistPush chars w.cmdHist hnd
  · intro fuel2 cmd2 w2 h2
    obtain ⟨_, hw2⟩ := submitStep_out fuel2 chars w1 cmd2 w2 hcmd h2
    rw [hw2]
    exact cmdHistPush_self chars w1.cmdHist
      (by rw [hw1]; exact cmdHistPush_headEq chars w.cmdHist)

/-- Witness for C6: the concrete submission of ['g'] into an empty
history. -/
theorem c6_history_dedup_witness :
    (⟨⟨3, 9, [[("❱ ", A_NORMAL), ("g", A_BOLD)]], 0⟩, [['g']]⟩ : World).cmdHist
        = cmdHistPush ['g'] (⟨⟨3, 9, [], 0⟩, []⟩ : World).cmdHist
    ∧ (⟨⟨3, 9, [[("❱ ", A_NORMAL), ("g", A_BOLD)]], 0⟩, [['g']]⟩ : World).cmdHist.head?
        = some ['g']
    ∧ noAdjDupB (⟨⟨3, 9, [[("❱ ", A_NORMAL), ("g", A_BOLD)]], 0⟩, [['g']]⟩ : World).cmdHist
        = true
    ∧ (∀ (fuel2 : Nat) (cmd2 : String) (w2 : World),
        submitStep fuel2 ['g'] ⟨⟨3, 9, [[("❱ ", A_NORMAL), ("g", A_BOLD)]], 0⟩, [['g']]⟩
            = some (cmd2, w2) →
          w2.cmdHist
            = (⟨⟨3, 9, [[("❱ ", A_NORMAL), ("g", A_BOLD)]], 0⟩, [['g']]⟩ : World).cmdHist) :=
  c6_history_dedup 30 ['g'] ⟨⟨3, 9, [], 0⟩, []⟩ "g"
    ⟨⟨3, 9, [[("❱ ", A_NORMAL), ("g", A_BOLD)]], 0⟩, [['g']]⟩
    (by decide) (by decide) (by decide)

/-! ## Claim C5 — paging clamp invariant -/

/-- The state invariant of the paging cursor: non-negative, no larger
than the scrollback size, with the scrollback within its ring capacity. -/
def msgInv (st : MsgboxState) : Prop :=
  0 ≤ st.historyIndex ∧ st.historyIndex ≤ (st.history.length : Int)
    ∧ st.history.length ≤ st.h * 10

theorem msgStep_inv (st : MsgboxState) (op : MsgOp) (h : msgInv st) :
    msgInv (msgStep st op) := by
  obtain ⟨h0, h1, h2⟩ := h
  have hps : (0 : Int) ≤ pageSizeOf st := by
    unfold pageSizeOf
    exact Int.natCast_nonneg _
  cases op with
  | up =>
    show msgInv (msgPageUp st).1
    unfold msgPageUp
    by_cases hg : pageSizeOf st < (st.history.length : Int) - st.historyIndex
    · rw [if_pos hg]
      refine ⟨?_, ?_, ?_⟩
      · show (0 : Int) ≤ st.historyIndex + pageSizeOf st
        omega
      · show st.historyIndex + pageSizeOf st ≤ (st.history.length : Int)
        omega
      · exact h2
    · rw [if_neg hg]
      exact ⟨h0, h1, h2⟩
  | down =>
    show msgInv (msgPageDown st).1
    unfold msgPageDown
    by_cases hg : pageSizeOf st ≤ st.historyIndex
    · rw [if_pos hg]
      refine ⟨?_, ?_, ?_⟩
      · show (0 : Int) ≤ st.historyIndex - pageSizeOf st
        omega
      · show st.historyIndex - pageSizeOf st ≤ (st.history.length : Int)
        omega
      · exact h2
    · rw [if_neg hg]
      exact ⟨h0, h1, h2⟩
  | push ls =>
    refine ⟨h0, ?_, ?_⟩
    · show st.historyIndex ≤ ((List.take (st.h * 10) (ls ++ st.history)).length : Int)
      rw [List.length_take, List.length_append]
      omega
    · show (List.take (st.h * 10) (ls ++ st.history)).length ≤ st.h * 10
      rw [List.length_take]
      omega

theorem msgRun_inv (st : MsgboxState) (ops : List MsgOp) (h : msgInv st) :
    msgInv (msgRun st ops) := by
  induction ops generalizing st with
  | nil => exact h
  | cons op rest ih => exact ih (msgStep st op) (msgStep_inv st op h)

theorem msgPageUp_ok (st : MsgboxState) (hne : noEmptyChunk st.history) :
    ∃ r, (msgPageUp st).2 = Except.ok r := by
  unfold msgPageUp
  by_cases hg : pageSizeOf st < (st.history.length : Int) - st.historyIndex
  · rw [if_pos hg]
    exact msgDraw_ok st.h st.w st.history (st.historyIndex + pageSizeOf st) hne
  · rw [if_neg hg]
    exact ⟨[], rfl⟩

theorem msgPageDown_ok (st : MsgboxState) (hne : noEmptyChunk st.history) :
    ∃ r, (msgPageDown st).2 = Except.ok r := by
  unfold msgPageDown
  by_cases hg : pageSizeOf st ≤ st.historyIndex
  · rw [if_pos hg]
    exact msgDraw_ok st.h st.w st.history (st.historyIndex - pageSizeOf st) hne
  · rw [if_neg hg]
    exact ⟨[], rfl⟩

/-- C5 amended: for every sequence of page_up / page_down / append
operations starting from offset 0 (ring within capacity), the offset
stays within [0, size] — the guarded updates clamp exactly as claimed and
the offset arithmetic itself never fails; and whenever every stored chunk
has non-empty text, neither paging operation throws. (Without that
proviso the redraw each operation triggers can raise, see the
counterexample.) -/
theorem c5_paging_clamp :
    (∀ (st0 : MsgboxState) (ops : List MsgOp),
        st0.historyIndex = 0 → st0.history.length ≤ st0.h * 10 →
        0 ≤ (msgRun st0 ops).historyIndex
        ∧ (msgRun st0 ops).historyIndex ≤ ((msgRun st0 ops).history.length : Int))
    ∧ (∀ st : MsgboxState, noEmptyChunk st.history →
        (∃ r, (msgPageUp st).2 = Except.ok r) ∧ (∃ r, (msgPageDown st).2 = Except.ok r)) := by
  constructor
  · intro st0 ops h0 hlen
    have hinv := msgRun_inv st0 ops ⟨by omega, by rw [h0]; exact Int.natCast_nonneg _, hlen⟩
    exact ⟨hinv.1, hinv.2.1⟩
  · intro st hne
    exact ⟨msgPageUp_ok st hne, msgPageDown_ok st hne⟩

/-- Witness for C5: a concrete operation sequence from offset 0, and a
concrete state whose paging operations return without error. -/
theorem c5_paging_clamp_witness :
    (0 ≤ (msgRun ⟨3, 5, [], 0⟩ [MsgOp.up, MsgOp.down]).historyIndex
      ∧ (msgRun ⟨3, 5, [], 0⟩ [MsgOp.up, MsgOp.down]).historyIndex
          ≤ ((msgRun ⟨3, 5, [], 0⟩ [MsgOp.up, MsgOp.down]).history.length : Int))
    ∧ ((∃ r, (msgPageUp ⟨3, 5, [[("· ", A_NORMAL), ("x", A_NORMAL)]], 0⟩).2 = Except.ok r)
      ∧ (∃ r, (msgPageDown ⟨3, 5, [[("· ", A_NORMAL), ("x", A_NORMAL)]], 0⟩).2 = Except.ok r)) :=
  ⟨c5_paging_clamp.1 ⟨3, 5, [], 0⟩ [MsgOp.up, MsgOp.down] rfl (by decide),
   c5_paging_clamp.2 ⟨3, 5, [[("· ", A_NORMAL), ("x", A_NORMAL)]], 0⟩ (by decide)⟩

/-! ## One iteration of the wrap loop, by cases

The following six lemmas characterise one unfolding of `wrapPhrase`,
split along the source's branches: phrase fits / split at a space /
hard-split an overlong word at line start / carry the phrase to the next
line, each at the start of a line (`line_position = 2`, where the phrase
is first left-stripped) or mid-line. -/

theorem wrapPhrase_succ_fit2 (n w : Nat) (phrase0 : String) (style : Nat) (hist : List Line)
    (hfit : pyLen (pyLstrip phrase0) ≤ w - 2) :
    wrapPhrase (n + 1) w phrase0 style 2 hist
      = some (pushChunk hist (pyLstrip phrase0, style), 2 + pyLen (pyLstrip phrase0)) := by
  simp only [wrapPhrase, eq_self_iff_true, if_true, if_pos hfit]

theorem wrapPhrase_succ_fitN (n w : Nat) (phrase0 : String) (style pos : Nat) (hist : List Line)
    (hp2 : pos ≠ 2) (hfit : pyLen phrase0 ≤ w - pos) :
    wrapPhrase (n + 1) w phrase0 style pos hist
      = some (pushChunk hist (phrase0, style), pos + pyLen phrase0) := by
  simp only [wrapPhrase, if_neg hp2, if_pos hfit]

theorem wrapPhrase_succ_space2 (n w : Nat) (phrase0 : String) (style : Nat) (hist : List Line)
    (i : Nat) (hnofit : ¬ pyLen (pyLstrip phrase0) ≤ w - 2)
    (hfs : pyRfindSpace (pyLstrip phrase0) (w - 2) = some i) (hi : 0 < i) :
    wrapPhrase (n + 1) w phrase0 style 2 hist
      = wrapPhrase n w (pyDrop (pyLstrip phrase0) i) style 2
          (newLine (pushChunk hist (pyTake (pyLstrip phrase0) i, style))) := by
  have hi' : (0 : Int) < (i : Int) := by exact_mod_cast hi
  simp only [wrapPhrase, eq_self_iff_true, if_true, if_neg hnofit, hfs, if_pos hi',
    Int.toNat_natCast]

theorem wrapPhrase_succ_spaceN (n w : Nat) (phrase0 : String) (style pos : Nat) (hist : List Line)
    (i : Nat) (hp2 : pos ≠ 2) (hnofit : ¬ pyLen phrase0 ≤ w - pos)
    (hfs : pyRfindSpace phrase0 (w - pos) = some i) (hi : 0 < i) :
    wrapPhrase (n + 1) w phrase0 style pos hist
      = wrapPhrase n w (pyDrop phrase0 i) style 2
          (newLine (pushChunk hist (pyTake phrase0 i, style))) := by
  have hi' : (0 : Int) < (i : Int) := by exact_mod_cast hi
  simp only [wrapPhrase, if_neg hp2, if_neg hnofit, hfs, if_pos hi', Int.toNat_natCast]

theorem wrapPhrase_succ_hard (n w : Nat) (phrase0 : String) (style : Nat) (hist : List Line)
    (hnofit : ¬ pyLen (pyLstrip phrase0) ≤ w - 2)
    (hns : pyRfindSpace (pyLstrip phrase0) (w - 2) = none
      ∨ pyRfindSpace (pyLstrip phrase0) (w - 2) = some 0) :
    wrapPhrase (n + 1) w phrase0 style 2 hist
      = wrapPhrase n w (pyDrop (pyLstrip phrase0) (w - 2)) style 2
          (newLine (pushChunk hist (pyTake (pyLstrip phrase0) (w - 2), style))) := by
  cases hns with
  | inl hfs =>
    simp only [wrapPhrase, eq_self_iff_true, if_true, if_neg hnofit, hfs,
      if_neg (by decide : ¬ ((0 : Int) < -1))]
  | inr hfs =>
    simp only [wrapPhrase, eq_self_iff_true, if_true, if_neg hnofit, hfs, Nat.cast_zero,
      if_neg (by decide : ¬ ((0 : Int) < 0))]

theorem wrapPhrase_succ_carry (n w : Nat) (phrase0 : String) (style pos : Nat) (hist : List Line)
    (hp2 : pos ≠ 2) (hnofit : ¬ pyLen phrase0 ≤ w - pos)
    (hns : pyRfindSpace phrase0 (w - pos) = none ∨ pyRfindSpace phrase0 (w - pos) = some 0) :
    wrapPhrase (n + 1) w phrase0 style pos hist
      = wrapPhrase n w phrase0 style 2 (newLine hist) := by
  cases hns with
  | inl hfs =>
    simp only [wrapPhrase, if_neg hp2, if_neg hnofit, hfs,
      if_neg (by decide : ¬ ((0 : Int) < -1)), if_neg hp2]
  | inr hfs =>
    simp only [wrapPhrase, if_neg hp2, if_neg hnofit, hfs, Nat.cast_zero,
      if_neg (by decide : ¬ ((0 : Int) < 0)), if_neg hp2]

/-! ## Line-length bookkeeping for the wrap loop -/

theorem lineLen_append_chunk (l : Line) (c : String × Nat) :
    lineLen (l ++ [c]) = lineLen l + pyLen c.1 := by
  simp [lineLen]

theorem lineLen_pushChunk_headD (hist : List Line) (c : String × Nat) :
    lineLen ((pushChunk hist c).headD []) = lineLen (hist.headD []) + pyLen c.1 := by
  cases hist with
  | nil => simp [pushChunk, lineLen]
  | cons h0 t => simp [pushChunk, lineLen_append_chunk]

theorem mem_pushChunk {hist : List Line} {c : String × Nat} {l : Line}
    (hl : l ∈ pushChunk hist c) :
    l = hist.headD [] ++ [c] ∨ l ∈ hist.tail := by
  cases hist with
  | nil =>
    simp [pushChunk] at hl
    simp [hl]
  | cons h0 t =>
    simp only [pushChunk, List.mem_cons] at hl
    cases hl with
    | inl h => exact Or.inl (by simpa using h)
    | inr h => exact Or.inr (by simpa using h)

theorem lineLen_indent : lineLen [((("  ") : String), A_NORMAL)] = 2 := by decide

theorem mem_newLine {hist : List Line} {l : Line} (hl : l ∈ newLine hist) :
    l = [("  ", A_NORMAL)] ∨ l ∈ hist := by
  simpa [newLine] using hl

theorem inv_newPush (w : Nat) (hist : List Line) (c : String × Nat) (pos : Nat)
    (hhead : lineLen (hist.headD []) = pos) (hall : ∀ l ∈ hist, lineLen l ≤ w)
    (hc : pos + pyLen c.1 ≤ w) (hw : 2 ≤ w) :
    lineLen ((newLine (pushChunk hist c)).headD []) = 2
    ∧ (∀ l ∈ newLine (pushChunk hist c), lineLen l ≤ w) := by
  constructor
  · exact lineLen_indent
  · intro l hl
    rcases mem_newLine hl with rfl | hm
    · rw [lineLen_indent]
      exact hw
    · rcases mem_pushChunk hm with rfl | hm2
      · rw [lineLen_append_chunk, hhead]
        exact hc
      · exact hall l (List.mem_of_mem_tail hm2)

theorem inv_new (w : Nat) (hist : List Line) (hall : ∀ l ∈ hist, lineLen l ≤ w) (hw : 2 ≤ w) :
    lineLen ((newLine hist).headD []) = 2 ∧ (∀ l ∈ newLine hist, lineLen l ≤ w) := by
  constructor
  · exact lineLen_indent
  · intro l hl
    rcases mem_newLine hl with rfl | hm
    · rw [lineLen_indent]
      exact hw
    · exact hall l hm

theorem wrapPhrase_inv (w : Nat) (hw : 2 < w) :
    ∀ (fuel : Nat) (phrase0 : String) (style pos : Nat) (hist hist' : List Line) (pos' : Nat),
      wrapPhrase fuel w phrase0 style pos hist = some (hist', pos') →
      lineLen (hist.headD []) = pos → pos ≤ w → (∀ l ∈ hist, lineLen l ≤ w) →
      lineLen (hist'.headD []) = pos' ∧ pos' ≤ w ∧ (∀ l ∈ hist', lineLen l ≤ w) := by
  intro fuel
  induction fuel with
  | zero => intro _ _ _ _ _ _ h _ _ _; cases h
  | succ n ih =>
    intro phrase0 style pos hist hist' pos' h hhead hpos hall
    by_cases hp2 : pos = 2
    · subst hp2
      by_cases hfit : pyLen (pyLstrip phrase0) ≤ w - 2
      · rw [wrapPhrase_succ_fit2 n w phrase0 style hist hfit] at h
        injection h with h'
        injection h' with hh hp
        subst hh
        subst hp
        refine ⟨by rw [lineLen_pushChunk_headD, hhead], by omega, ?_⟩
        intro l hl
        rcases mem_pushChunk hl with rfl | hm
        · rw [lineLen_append_chunk, hhead]
          show 2 + pyLen (pyLstrip phrase0) ≤ w
          omega
        · exact hall l (List.mem_of_mem_tail hm)
      · have hlen : w - 2 < pyLen (pyLstrip phrase0) := by omega
        cases hfs : pyRfindSpace (pyLstrip phrase0) (w - 2) with
        | none =>
          rw [wrapPhrase_succ_hard n w phrase0 style hist hfit (Or.inl hfs)] at h
          have hfrag : 2 + pyLen (pyTake (pyLstrip phrase0) (w - 2)) ≤ w := by
            rw [pyLen_pyTake]
            omega
          obtain ⟨hh2, ha2⟩ := inv_newPush w hist (pyTake (pyLstrip phrase0) (w - 2), style) 2
            hhead hall hfrag (by omega)
          exact ih _ _ _ _ _ _ h hh2 (by omega) ha2
        | some i =>
          rcases Nat.eq_zero_or_pos i with rfl | hposi
          · rw [wrapPhrase_succ_hard n w phrase0 style hist hfit (Or.inr hfs)] at h
            have hfrag : 2 + pyLen (pyTake (pyLstrip phrase0) (w - 2)) ≤ w := by
              rw [pyLen_pyTake]
              omega
            obtain ⟨hh2, ha2⟩ := inv_newPush w hist (pyTake (pyLstrip phrase0) (w - 2), style) 2
              hhead hall hfrag (by omega)
            exact ih _ _ _ _ _ _ h hh2 (by omega) ha2
          · rw [wrapPhrase_succ_space2 n w phrase0 style hist i hfit hfs hposi] at h
            have hib := pyRfindSpace_lt hfs
            have hfrag : 2 + pyLen (pyTake (pyLstrip phrase0) i) ≤ w := by
              rw [pyLen_pyTake]
              omega
            obtain ⟨hh2, ha2⟩ := inv_newPush w hist (pyTake (pyLstrip phrase0) i, style) 2
              hhead hall hfrag (by omega)
            exact ih _ _ _ _ _ _ h hh2 (by omega) ha2
    · by_cases hfit : pyLen phrase0 ≤ w - pos
      · rw [wrapPhrase_succ_fitN n w phrase0 style pos hist hp2 hfit] at h
        injection h with h'
        injection h' with hh hp
        subst hh
        subst hp
        refine ⟨by rw [lineLen_pushChunk_headD, hhead], by omega, ?_⟩
        intro l hl
        rcases mem_pushChunk hl with rfl | hm
        · rw [lineLen_append_chunk, hhead]
          show pos + pyLen phrase0 ≤ w
          omega
        · exact hall l (List.mem_of_mem_tail hm)
      · cases hfs : pyRfindSpace phrase0 (w - pos) with
        | none =>
          rw [wrapPhrase_succ_carry n w phrase0 style pos hist hp2 hfit (Or.inl hfs)] at h
          obtain ⟨hh2, ha2⟩ := inv_new w hist hall (by omega)
          exact ih _ _ _ _ _ _ h hh2 (by omega) ha2
        | some i =>
          rcases Nat.eq_zero_or_pos i with rfl | hposi
          · rw [wrapPhrase_succ_carry n w phrase0 style pos hist hp2 hfit (Or.inr hfs)] at h
            obtain ⟨hh2, ha2⟩ := inv_new w hist hall (by omega)
            exact ih _ _ _ _ _ _ h hh2 (by omega) ha2
          · rw [wrapPhrase_succ_spaceN n w phrase0 style pos hist i hp2 hfit hfs hposi] at h
            have hib := pyRfindSpace_lt hfs
            have hfrag : pos + pyLen (pyTake phrase0 i) ≤ w := by
              rw [pyLen_pyTake]
              omega
            obtain ⟨hh2, ha2⟩ := inv_newPush w hist (pyTake phrase0 i, style) pos
              hhead hall hfrag (by omega)
            exact ih _ _ _ _ _ _ h hh2 (by omega) ha2

theorem wrapChunksGo_inv (fuel w : Nat) (hw : 2 < w) :
    ∀ (chunks : List Chunk) (hist : List Line) (pos : Nat) (hist' : List Line)
      (e : Option AppendErr),
      wrapChunksGo fuel w chunks hist pos = some (hist', e) →
      lineLen (hist.headD []) = pos → pos ≤ w → (∀ l ∈ hist, lineLen l ≤ w) →
      ∀ l ∈ hist', lineLen l ≤ w := by
  intro chunks
  induction chunks with
  | nil =>
    intro hist pos hist' e h _ _ hall
    injection h with h'
    injection h' with hh he
    subst hh
    exact hall
  | cons c rest ih =>
    intro hist pos hist' e h hhead hpos hall
    cases c with
    | str s =>
      simp only [wrapChunksGo] at h
      cases hwp : wrapPhrase fuel w s A_NORMAL pos hist with
      | none => rw [hwp] at h; cases h
      | some pr =>
        obtain ⟨h1, p1⟩ := pr
        rw [hwp] at h
        obtain ⟨hh1, hp1, hall1⟩ := wrapPhrase_inv w hw fuel s A_NORMAL pos hist h1 p1 hwp
          hhead hpos hall
        exact ih h1 p1 hist' e h hh1 hp1 hall1
    | tup s st =>
      simp only [wrapChunksGo] at h
      cases hwp : wrapPhrase fuel w s st pos hist with
      | none => rw [hwp] at h; cases h
      | some pr =>
        obtain ⟨h1, p1⟩ := pr
        rw [hwp] at h
        obtain ⟨hh1, hp1, hall1⟩ := wrapPhrase_inv w hw fuel s st pos hist h1 p1 hwp
          hhead hpos hall
        exact ih h1 p1 hist' e h hh1 hp1 hall1
    | other =>
      injection h with h'
      injection h' with hh he
      subst hh
      exact hall

theorem pyLen_data_append (a b : List Char) :
    pyLen (String.mk a ++ String.mk b) = a.length + b.length := by
  show (String.mk a ++ String.mk b).data.length = a.length + b.length
  rw [show (String.mk a ++ String.mk b) = String.mk (a ++ b) from rfl]
  exact List.length_append a b

/-- C1: every line produced by one `append` call — the sigil line, the
indent lines and all fragments included — occupies at most `w` columns,
for any content width `w > 2` and any one-glyph sigil. -/
theorem c1_wrap_width_bound (fuel w : Nat) (hw : 2 < w) (chunks : List Chunk) (sigil : String)
    (hs : pyLen sigil = 1) (lines : List Line) (e : Option AppendErr)
    (h : wrapChunks fuel w chunks sigil = some (lines, e)) :
    ∀ l ∈ lines, lineLen l ≤ w := by
  have hsig : lineLen [((sigil ++ " " : String), A_NORMAL)] = 2 := by
    have : pyLen (sigil ++ " ") = 2 := by
      cases sigil with
      | mk d =>
        have := pyLen_data_append d [' ']
        simp only [pyLen] at hs ⊢
        calc (String.mk d ++ " ").data.length
            = (String.mk d ++ String.mk [' ']).data.length := rfl
          _ = d.length + 1 := this
          _ = 2 := by omega
    simp [lineLen, this]
  apply wrapChunksGo_inv fuel w hw chunks [[(sigil ++ " ", A_NORMAL)]] 2 lines e h
  · exact hsig
  · omega
  · intro l hl
    simp only [List.mem_singleton] at hl
    subst hl
    omega

theorem wrapPhrase_mono (w : Nat) :
    ∀ (f : Nat) (phrase0 : String) (style pos : Nat) (hist : List Line)
      (r : List Line × Nat) (g : Nat), f ≤ g →
      wrapPhrase f w phrase0 style pos hist = some r →
      wrapPhrase g w phrase0 style pos hist = some r := by
  intro f
  induction f with
  | zero => intro _ _ _ _ _ _ _ h; cases h
  | succ n ih =>
    intro phrase0 style pos hist r g hle h
    obtain ⟨m, rfl⟩ : ∃ m, g = m + 1 := ⟨g - 1, by omega⟩
    by_cases hp2 : pos = 2
    · subst hp2
      by_cases hfit : pyLen (pyLstrip phrase0) ≤ w - 2
      · rw [wrapPhrase_succ_fit2 n w phrase0 style hist hfit] at h
        rw [wrapPhrase_succ_fit2 m w phrase0 style hist hfit]
        exact h
      · cases hfs : pyRfindSpace (pyLstrip phrase0) (w - 2) with
        | none =>
          rw [wrapPhrase_succ_hard n w phrase0 style hist hfit (Or.inl hfs)] at h
          rw [wrapPhrase_succ_hard m w phrase0 style hist hfit (Or.inl hfs)]
          exact ih _ _ _ _ _ m (by omega) h
        | some i =>
          rcases Nat.eq_zero_or_pos i with rfl | hposi
          · rw [wrapPhrase_succ_hard n w phrase0 style hist hfit (Or.inr hfs)] at h
            rw [wrapPhrase_succ_hard m w phrase0 style hist hfit (Or.inr hfs)]
            exact ih _ _ _ _ _ m (by omega) h
          · rw [wrapPhrase_succ_space2 n w phrase0 style hist i hfit hfs hposi] at h
            rw [wrapPhrase_succ_space2 m w phrase0 style hist i hfit hfs hposi]
            exact ih _ _ _ _ _ m (by omega) h
    · by_cases hfit : pyLen phrase0 ≤ w - pos
      · rw [wrapPhrase_succ_fitN n w phrase0 style pos hist hp2 hfit] at h
        rw [wrapPhrase_succ_fitN m w phrase0 style pos hist hp2 hfit]
        exact h
      · cases hfs : pyRfindSpace phrase0 (w - pos) with
        | none =>
          rw [wrapPhrase_succ_carry n w phrase0 style pos hist hp2 hfit (Or.inl hfs)] at h
          rw [wrapPhrase_succ_carry m w phrase0 style pos hist hp2 hfit (Or.inl hfs)]
          exact ih _ _ _ _ _ m (by omega) h
        | some i =>
          rcases Nat.eq_zero_or_pos i with rfl | hposi
          · rw [wrapPhrase_succ_carry n w phrase0 style pos hist hp2 hfit (Or.inr hfs)] at h
            rw [wrapPhrase_succ_carry m w phrase0 style pos hist hp2 hfit (Or.inr hfs)]
            exact ih _ _ _ _ _ m (by omega) h
          · rw [wrapPhrase_succ_spaceN n w phrase0 style pos hist i hp2 hfit hfs hposi] at h
            rw [wrapPhrase_succ_spaceN m w phrase0 style pos hist i hp2 hfit hfs hposi]
            exact ih _ _ _ _ _ m (by omega) h

theorem wrapChunksGo_mono (w : Nat) :
    ∀ (chunks : List Chunk) (f g : Nat) (hist : List Line) (pos : Nat)
      (r : List Line × Option AppendErr), f ≤ g →
      wrapChunksGo f w chunks hist pos = some r →
      wrapChunksGo g w chunks hist pos = some r := by
  intro chunks
  induction chunks with
  | nil => intro f g hist pos r _ h; exact h
  | cons c rest ih =>
    intro f g hist pos r hle h
    cases c with
    | str s =>
      simp only [wrapChunksGo] at h ⊢
      cases hwp : wrapPhrase f w s A_NORMAL pos hist with
      | none => rw [hwp] at h; cases h
      | some pr =>
        rw [hwp] at h
        rw [wrapPhrase_mono w f s A_NORMAL pos hist pr g hle hwp]
        exact ih f g pr.1 pr.2 r hle (by cases pr; exact h)
    | tup s st =>
      simp only [wrapChunksGo] at h ⊢
      cases hwp : wrapPhrase f w s st pos hist with
      | none => rw [hwp] at h; cases h
      | some pr =>
        rw [hwp] at h
        rw [wrapPhrase_mono w f s st pos hist pr g hle hwp]
        exact ih f g pr.1 pr.2 r hle (by cases pr; exact h)
    | other => exact h

theorem wrapPhrase_total (w : Nat) (hw : 3 ≤ w) :
    ∀ (n : Nat) (phrase0 : String) (style pos : Nat) (hist : List Line),
      2 * pyLen phrase0 + (if pos = 2 then 1 else 2) ≤ n →
      ∃ r, wrapPhrase n w phrase0 style pos hist = some r := by
  intro n
  induction n with
  | zero =>
    intro phrase0 style pos hist hm
    exfalso
    have h1 : 1 ≤ (if pos = 2 then 1 else 2) := by split <;> omega
    omega
  | succ n ih =>
    intro phrase0 style pos hist hm
    by_cases hp2 : pos = 2
    · subst hp2
      simp only [eq_self_iff_true, if_true] at hm
      have hls : pyLen (pyLstrip phrase0) ≤ pyLen phrase0 := pyLen_pyLstrip_le phrase0
      by_cases hfit : pyLen (pyLstrip phrase0) ≤ w - 2
      · exact ⟨_, wrapPhrase_succ_fit2 n w phrase0 style hist hfit⟩
      · cases hfs : pyRfindSpace (pyLstrip phrase0) (w - 2) with
        | none =>
          rw [wrapPhrase_succ_hard n w phrase0 style hist hfit (Or.inl hfs)]
          apply ih
          simp only [eq_self_iff_true, if_true, pyLen_pyDrop]
          omega
        | some i =>
          rcases Nat.eq_zero_or_pos i with rfl | hposi
          · rw [wrapPhrase_succ_hard n w phrase0 style hist hfit (Or.inr hfs)]
            apply ih
            simp only [eq_self_iff_true, if_true, pyLen_pyDrop]
            omega
          · rw [wrapPhrase_succ_space2 n w phrase0 style hist i hfit hfs hposi]
            apply ih
            simp only [eq_self_iff_true, if_true, pyLen_pyDrop]
            omega
    · rw [if_neg hp2] at hm
      by_cases hfit : pyLen phrase0 ≤ w - pos
      · exact ⟨_, wrapPhrase_succ_fitN n w phrase0 style pos hist hp2 hfit⟩
      · cases hfs : pyRfindSpace phrase0 (w - pos) with
        | none =>
          rw [wrapPhrase_succ_carry n w phrase0 style pos hist hp2 hfit (Or.inl hfs)]
          apply ih
          simp only [eq_self_iff_true, if_true]
          omega
        | some i =>
          rcases Nat.eq_zero_or_pos i with rfl | hposi
          · rw [wrapPhrase_succ_carry n w phrase0 style pos hist hp2 hfit (Or.inr hfs)]
            apply ih
            simp only [eq_self_iff_true, if_true]
            omega
          · rw [wrapPhrase_succ_spaceN n w phrase0 style pos hist i hp2 hfit hfs hposi]
            apply ih
            simp only [eq_self_iff_true, if_true, pyLen_pyDrop]
            omega

theorem wrapChunksGo_total (w : Nat) (hw : 3 ≤ w) :
    ∀ (chunks : List Chunk) (hist : List Line) (pos : Nat),
      (∀ c ∈ chunks, c ≠ Chunk.other) →
      ∃ fuel hist', wrapChunksGo fuel w chunks hist pos = some (hist', none) := by
  intro chunks
  induction chunks with
  | nil => intro hist pos _; exact ⟨0, hist, rfl⟩
  | cons c rest ih =>
    intro hist pos hv
    cases c with
    | other => exact absurd rfl (hv Chunk.other (by simp))
    | str s =>
      obtain ⟨r, hr⟩ := wrapPhrase_total w hw (2 * pyLen s + 2) s A_NORMAL pos hist
        (by split <;> omega)
      obtain ⟨h1, p1⟩ := r
      obtain ⟨fuel2, hist', h2⟩ := ih h1 p1 (fun c hc => hv c (by simp [hc]))
      refine ⟨max (2 * pyLen s + 2) fuel2, hist', ?_⟩
      simp only [wrapChunksGo]
      rw [wrapPhrase_mono w (2 * pyLen s + 2) s A_NORMAL pos hist (h1, p1) _
        (le_max_left _ _) hr]
      exact wrapChunksGo_mono w rest fuel2 _ h1 p1 (hist', none) (le_max_right _ _) h2
    | tup s st =>
      obtain ⟨r, hr⟩ := wrapPhrase_total w hw (2 * pyLen s + 2) s st pos hist
        (by split <;> omega)
      obtain ⟨h1, p1⟩ := r
      obtain ⟨fuel2, hist', h2⟩ := ih h1 p1 (fun c hc => hv c (by simp [hc]))
      refine ⟨max (2 * pyLen s + 2) fuel2, hist', ?_⟩
      simp only [wrapChunksGo]
      rw [wrapPhrase_mono w (2 * pyLen s + 2) s st pos hist (h1, p1) _
        (le_max_left _ _) hr]
      exact wrapChunksGo_mono w rest fuel2 _ h1 p1 (hist', none) (le_max_right _ _) h2

/-- C9: for every content width w ≥ 3 and every sequence of valid chunks
(strings or (text, style) tuples), `append` terminates with a normal
return: a finite fuel bound suffices for the whole wrap loop, because
each iteration either consumes the remaining phrase, strictly shortens it
(word split, or hard split of w − 2 ≥ 1 characters at line start), or
reaches cursor 2 from which the next iteration strictly shortens it. -/
theorem c9_append_terminates (w maxlen : Nat) (hw : 3 ≤ w) (chunks : List Chunk)
    (sigil : String) (hist : List Line) (hv : ∀ c ∈ chunks, c ≠ Chunk.other) :
    ∃ fuel lines, msgAppend fuel w maxlen chunks sigil hist = some (lines, none) := by
  obtain ⟨fuel, hist', h⟩ := wrapChunksGo_total w hw chunks [[(sigil ++ " ", A_NORMAL)]] 2 hv
  exact ⟨fuel, List.take maxlen (hist' ++ hist), by simp [msgAppend, wrapChunks, h]⟩

/-- Witness for C9: the concrete append of "abc" at width 3 terminates. -/
theorem c9_append_terminates_witness :
    ∃ fuel lines, msgAppend fuel 3 30 [Chunk.str "abc"] "·" [] = some (lines, none) :=
  c9_append_terminates 3 30 (by omega) [Chunk.str "abc"] "·" [] (by decide)

/-- Witness for C1: a concrete wrapped line stays within width 5. -/
theorem c1_wrap_width_bound_witness :
    lineLen [(("· " : String), A_NORMAL), ("ab", A_NORMAL)] ≤ 5 :=
  c1_wrap_width_bound 10 5 (by omega) [Chunk.str "ab c"] "·" (by decide)
    [[("  ", A_NORMAL), ("c", A_NORMAL)], [("· ", A_NORMAL), ("ab", A_NORMAL)]] none (by decide)
    [("· ", A_NORMAL), ("ab", A_NORMAL)] (by decide)

/-! ## Claim C3, amended: partial mutation on an invalid chunk at any position

The wrap loop only ever transforms the produced-lines list through
`pushChunk` (extend the newest line) and `newLine` (start a fresh line),
so any predicate preserved by those two operations is an invariant of the
whole loop. -/

theorem wrapPhrase_preserves (P : List Line → Prop)
    (hpush : ∀ (hist : List Line) (c : String × Nat), P hist → P (pushChunk hist c))
    (hnew : ∀ hist : List Line, P hist → P (newLine hist)) (w : Nat) :
    ∀ (fuel : Nat) (phrase0 : String) (style pos : Nat) (hist hist' : List Line) (pos' : Nat),
      wrapPhrase fuel w phrase0 style pos hist = some (hist', pos') →
      P hist → P hist' := by
  intro fuel
  induction fuel with
  | zero => intro _ _ _ _ _ _ h _; cases h
  | succ n ih =>
    intro phrase0 style pos hist hist' pos' h hP
    by_cases hp2 : pos = 2
    · subst hp2
      by_cases hfit : pyLen (pyLstrip phrase0) ≤ w - 2
      · rw [wrapPhrase_succ_fit2 n w phrase0 style hist hfit] at h
        injection h with h'
        injection h' with hh _
        subst hh
        exact hpush hist _ hP
      · cases hfs : pyRfindSpace (pyLstrip phrase0) (w - 2) with
        | none =>
          rw [wrapPhrase_succ_hard n w phrase0 style hist hfit (Or.inl hfs)] at h
          exact ih _ _ _ _ _ _ h (hnew _ (hpush _ _ hP))
        | some i =>
          rcases Nat.eq_zero_or_pos i with rfl | hposi
          · rw [wrapPhrase_succ_hard n w phrase0 style hist hfit (Or.inr hfs)] at h
            exact ih _ _ _ _ _ _ h (hnew _ (hpush _ _ hP))
          · rw [wrapPhrase_succ_space2 n w phrase0 style hist i hfit hfs hposi] at h
            exact ih _ _ _ _ _ _ h (hnew _ (hpush _ _ hP))
    · by_cases hfit : pyLen phrase0 ≤ w - pos
      · rw [wrapPhrase_succ_fitN n w phrase0 style pos hist hp2 hfit] at h
        injection h with h'
        injection h' with hh _
        subst hh
        exact hpush hist _ hP
      · cases hfs : pyRfindSpace phrase0 (w - pos) with
        | none =>
          rw [wrapPhrase_succ_carry n w phrase0 style pos hist hp2 hfit (Or.inl hfs)] at h
          exact ih _ _ _ _ _ _ h (hnew _ hP)
        | some i =>
          rcases Nat.eq_zero_or_pos i with rfl | hposi
          · rw [wrapPhrase_succ_carry n w phrase0 style pos hist hp2 hfit (Or.inr hfs)] at h
            exact ih _ _ _ _ _ _ h (hnew _ hP)
          · rw [wrapPhrase_succ_spaceN n w phrase0 style pos hist i hp2 hfit hfs hposi] at h
            exact ih _ _ _ _ _ _ h (hnew _ (hpush _ _ hP))

theorem wrapChunksGo_preserves (P : List Line → Prop)
    (hpush : ∀ (hist : List Line) (c : String × Nat), P hist → P (pushChunk hist c))
    (hnew : ∀ hist : List Line, P hist → P (newLine hist)) (fuel w : Nat) :
    ∀ (chunks : List Chunk) (hist : List Line) (pos : Nat) (hist' : List Line)
      (e : Option AppendErr),
      wrapChunksGo fuel w chunks hist pos = some (hist', e) → P hist → P hist' := by
  intro chunks
  induction chunks with
  | nil =>
    intro hist pos hist' e h hP
    injection h with h'
    injection h' with hh _
    subst hh
    exact hP
  | cons c rest ih =>
    intro hist pos hist' e h hP
    cases c with
    | str s =>
      simp only [wrapChunksGo] at h
      cases hwp : wrapPhrase fuel w s A_NORMAL pos hist with
      | none => rw [hwp] at h; cases h
      | some pr =>
        rw [hwp] at h
        obtain ⟨h1, p1⟩ := pr
        exact ih h1 p1 hist' e h
          (wrapPhrase_preserves P hpush hnew w fuel s A_NORMAL pos hist h1 p1 hwp hP)
    | tup s st =>
      simp only [wrapChunksGo] at h
      cases hwp : wrapPhrase fuel w s st pos hist with
      | none => rw [hwp] at h; cases h
      | some pr =>
        rw [hwp] at h
        obtain ⟨h1, p1⟩ := pr
        exact ih h1 p1 hist' e h
          (wrapPhrase_preserves P hpush hnew w fuel s st pos hist h1 p1 hwp hP)
    | other =>
      injection h with h'
      injection h' with hh _
      subst hh
      exact hP

/-- Appending the invalid chunk (and anything after it) to a chunk list
whose wrap succeeded changes nothing about the produced lines: the loop
raises at the invalid chunk, keeping exactly the lines wrapped from the
arguments before it. -/
theorem wrapChunksGo_prefix_invalid (fuel w : Nat) :
    ∀ (pre rest : List Chunk) (hist0 : List Line) (pos0 : Nat) (produced : List Line),
      wrapChunksGo fuel w pre hist0 pos0 = some (produced, none) →
      wrapChunksGo fuel w (pre ++ Chunk.other :: rest) hist0 pos0
        = some (produced, some AppendErr.invalidChunk) := by
  intro pre
  induction pre with
  | nil =>
    intro rest hist0 pos0 produced h
    injection h with h'
    injection h' with hh _
    subst hh
    rfl
  | cons c pre' ih =>
    intro rest hist0 pos0 produced h
    cases c with
    | str s =>
      simp only [wrapChunksGo, List.cons_append] at h ⊢
      cases hwp : wrapPhrase fuel w s A_NORMAL pos0 hist0 with
      | none => rw [hwp] at h; cases h
      | some pr =>
        rw [hwp] at h
        obtain ⟨h1, p1⟩ := pr
        exact ih rest h1 p1 produced h
    | tup s st =>
      simp only [wrapChunksGo, List.cons_append] at h ⊢
      cases hwp : wrapPhrase fuel w s st pos0 hist0 with
      | none => rw [hwp] at h; cases h
      | some pr =>
        rw [hwp] at h
        obtain ⟨h1, p1⟩ := pr
        exact ih rest h1 p1 produced h
    | other =>
      injection h with h'
      injection h' with _ he
      cases he

/-- C3 amended: a call containing an invalid chunk at any position raises
`AppendErr.invalidChunk`, but not atomically — the scrollback afterwards
is the old ring with every line wrapped from the valid chunks preceding
the invalid one pushed on top (`produced`, whatever wrapping that prefix
alone yields), and the sigil line survives among them: the oldest
produced line still starts with the sigil chunk. -/
theorem c3_partial_mutation (fuel w maxlen : Nat) (pre rest : List Chunk) (sigil : String)
    (hist : List Line) (produced : List Line)
    (hwrap : wrapChunks fuel w pre sigil = some (produced, none)) :
    msgAppend fuel w maxlen (pre ++ Chunk.other :: rest) sigil hist
        = some (List.take maxlen (produced ++ hist), some AppendErr.invalidChunk)
    ∧ ∃ init ext, produced = init ++ [(sigil ++ " ", A_NORMAL) :: ext] := by
  constructor
  · unfold msgAppend wrapChunks
    rw [wrapChunksGo_prefix_invalid fuel w pre rest [[(sigil ++ " ", A_NORMAL)]] 2 produced hwrap]
  · refine wrapChunksGo_preserves
      (fun hs => ∃ init ext, hs = init ++ [(sigil ++ " ", A_NORMAL) :: ext])
      ?_ ?_ fuel w pre [[(sigil ++ " ", A_NORMAL)]] 2 produced none hwrap ⟨[], [], rfl⟩
    · intro hs c hPs
      obtain ⟨init, ext, rfl⟩ := hPs
      cases init with
      | nil => exact ⟨[], ext ++ [c], by simp [pushChunk]⟩
      | cons a init' => exact ⟨(a ++ [c]) :: init', ext, by simp [pushChunk]⟩
    · intro hs hPs
      obtain ⟨init, ext, rfl⟩ := hPs
      exact ⟨[("  ", A_NORMAL)] :: init, ext, rfl⟩

/-- Witness for C3: `append("hi", <invalid>)` raises, leaving the wrapped
line [sigil, "hi"] in the ring. -/
theorem c3_partial_mutation_witness :
    msgAppend 10 5 30 ([Chunk.str "hi"] ++ Chunk.other :: []) "·" []
        = some (List.take 30 ([[("·" ++ " ", A_NORMAL), ("hi", A_NORMAL)]] ++ []),
                some AppendErr.invalidChunk)
    ∧ ∃ init ext,
        ([[("·" ++ " ", A_NORMAL), ("hi", A_NORMAL)]] : List Line)
          = init ++ [("·" ++ " ", A_NORMAL) :: ext] :=
  c3_partial_mutation 10 5 30 [Chunk.str "hi"] [] "·" []
    [[("·" ++ " ", A_NORMAL), ("hi", A_NORMAL)]] (by decide)
